import Mathlib

/-!
Verification of the link-saver bot's command-handling core (`bot.py`).

Strings are modelled as `List Char` (`Str`), so that Python's slicing,
splitting and concatenation become plain list operations.  Each command
handler (`save_link`, `list_links`, `show_tags`, `find_by_tag`) is embedded
as a pure function from its inputs and the store state (a list of link
records, `insert_one` appends) to the new state and the list of replies
sent, in order.
-/

set_option maxRecDepth 2000

abbrev Str := List Char

/-- The Python `str.split()` / `str.strip()` whitespace set (ASCII part). -/
def pySpace (c : Char) : Bool :=
  c == ' ' || c == '\t' || c == '\n' || c == '\r' ||
    c == Char.ofNat 11 || c == Char.ofNat 12

/-- `text.strip()`: drop leading and trailing whitespace. -/
def pyStrip (t : Str) : Str :=
  ((t.dropWhile pySpace).reverse.dropWhile pySpace).reverse

/-- Worker for `str.split()`: `acc` holds the current token, reversed. -/
def pySplitAux : Str → Str → List Str
  | [], acc => if acc.isEmpty then [] else [acc.reverse]
  | c :: cs, acc =>
    if pySpace c then
      if acc.isEmpty then pySplitAux cs [] else acc.reverse :: pySplitAux cs []
    else
      pySplitAux cs (c :: acc)

/-- Python `text.split()` with no argument: split on whitespace runs,
no empty tokens. -/
def pySplit (t : Str) : List Str := pySplitAux t []

/-- `text.strip().split()` as computed at the top of `save_link`. -/
def pyTokens (t : Str) : List Str := pySplit (pyStrip t)

/-- `word.startswith('#')`: the first character is `#`. -/
def startsHash (w : Str) : Bool := w.head? == some '#'

/-- `link.startswith(('http://', 'https://'))` (case-sensitive). -/
def isHttpPre (w : Str) : Bool :=
  w.take 7 == "http://".data || w.take 8 == "https://".data

/-- Characters ending the netloc component in `urllib.parse`. -/
def netDelim (c : Char) : Bool := c == '/' || c == '?' || c == '#'

/-- The part of the link after its `http://` / `https://` prefix.
In `save_link` the link always has such a prefix when parsed. -/
def schemeRest (link : Str) : Str :=
  if link.take 8 == "https://".data then link.drop 8
  else if link.take 7 == "http://".data then link.drop 7
  else link

/-- `urlparse(link).netloc` for an `http(s)://`-prefixed link: the
characters after `//` up to the first `/`, `?` or `#`.  `none` models the
`ValueError` urlparse raises on mismatched IPv6 brackets in the netloc. -/
def urlNetloc (link : Str) : Option Str :=
  let n := (schemeRest link).takeWhile (fun c => !(netDelim c))
  if (n.contains '[') != (n.contains ']') then none else some n

/-- A stored link document (`link_data` in `save_link`). -/
structure LinkRecord where
  user_id : Nat
  link : Str
  tags : List Str
  created_at : Nat
deriving DecidableEq

/-- `links_collection.find({'user_id': uid})`: the owner's records in
insertion order. -/
def listByOwner (uid : Nat) (s : List LinkRecord) : List LinkRecord :=
  s.filter (fun r => r.user_id == uid)

/-- `links_collection.find({'user_id': uid, 'tags': tag})`: the owner's
records whose tag array contains `tag` (exact, case-sensitive match). -/
def findByOwnerAndTag (uid : Nat) (tag : Str) (s : List LinkRecord) :
    List LinkRecord :=
  s.filter (fun r => r.user_id == uid && r.tags.contains tag)

/-- Line 61: `[word[1:] for word in parts[2:] if word.startswith('#')]`. -/
def tagsOfParts (parts : List Str) : List Str :=
  ((parts.drop 2).filter startsHash).map (fun w => w.drop 1)

def saveUsageMsg : Str :=
  "Please provide a link and optional tags.\nFormat: /save <link> #tag1 #tag2".data

def invalidUrlMsg : Str :=
  "Please provide a valid URL.\nExample: www.example.com or https://example.com".data

def savedOkMsg (tags : List Str) : Str :=
  "Link saved successfully with tags: ".data ++
    (if tags.isEmpty then "no tags".data else List.intercalate ", ".data tags)

/-- Line 60: `link = parts[1]` (guarded by the length check). -/
def candOf (text : Str) : Str := (pyTokens text).getD 1 []

/-- Lines 64-65: prepend `https://` unless the candidate already starts
with `http://` or `https://`. -/
def linkOf (text : Str) : Str :=
  if isHttpPre (candOf text) then candOf text
  else "https://".data ++ candOf text

/-- The tag list extracted by `save_link` from the message text. -/
def saveTags (text : Str) : List Str := tagsOfParts (pyTokens text)

/-- The `/save` handler: given the full message text, the caller's id, the
current time and the store state, return the new state and the replies. -/
def save_link (text : Str) (uid now : Nat) (s : List LinkRecord) :
    List LinkRecord × List Str :=
  if (pyTokens text).length < 2 then (s, [saveUsageMsg])
  else
    match urlNetloc (linkOf text) with
    | none => (s, [invalidUrlMsg])
    | some n =>
      if n.isEmpty then (s, [invalidUrlMsg])
      else
        (s ++ [⟨uid, linkOf text, saveTags text, now⟩],
          [savedOkMsg (saveTags text)])

/-- One bulleted output line for a record, shared verbatim by
`list_links` (lines 98-100) and `find_by_tag` (lines 142-144):
`• <link>` plus ` [tag1, tag2]` when the tag list is non-empty. -/
def fmtRecord (r : LinkRecord) : Str :=
  "• ".data ++ r.link ++
    (if r.tags.isEmpty then [] else
      " [".data ++ List.intercalate ", ".data r.tags ++ "]".data) ++
    "\n".data

def noLinksYet : Str := "You haven't saved any links yet.".data

/-- The message `list_links` accumulates before the length check. -/
def listMessage (links : List LinkRecord) : Str :=
  "Your saved links:\n\n".data ++ (links.map fmtRecord).flatten

/-- Worker for `chunks4000`; the fuel only forces termination and is set
to the string length, which always suffices. -/
def chunksAux : Nat → Str → List Str
  | 0, _ => []
  | _, [] => []
  | fuel + 1, c :: cs => ((c :: cs).take 4000) :: chunksAux fuel (cs.drop 3999)

/-- Line 104: `[message[i:i+4000] for i in range(0, len(message), 4000)]`:
successive 4000-character slices of the message. -/
def chunks4000 (s : Str) : List Str := chunksAux s.length s

/-- The `/list` handler: the replies sent, in order. -/
def list_links (uid : Nat) (s : List LinkRecord) : List Str :=
  let links := listByOwner uid s
  if links.isEmpty then [noLinksYet]
  else
    let message := listMessage links
    if 4000 < message.length then chunks4000 message else [message]

def noTagsYet : Str := "You haven't used any tags yet.".data

/-- Lexicographic order on strings by code point, as `sorted` uses. -/
def strLe : Str → Str → Bool
  | [], _ => true
  | _ :: _, [] => false
  | a :: as, b :: bs => if a == b then strLe as bs else a.toNat ≤ b.toNat

def insertStr (x : Str) : List Str → List Str
  | [] => [x]
  | y :: ys => if strLe x y then x :: y :: ys else y :: insertStr x ys

/-- `sorted(tags)` for a set of tags, as a sorted duplicate-free list. -/
def sortStrs : List Str → List Str
  | [] => []
  | x :: xs => insertStr x (sortStrs xs)

/-- The `/tags` handler: the distinct tags over the caller's records,
sorted and comma-joined. -/
def show_tags (uid : Nat) (s : List LinkRecord) : List Str :=
  let allTags := ((listByOwner uid s).map (fun r => r.tags)).flatten
  let distinct := allTags.dedup
  if distinct.isEmpty then [noTagsYet]
  else ["Your tags:\n".data ++ List.intercalate ", ".data (sortStrs distinct)]

def findUsageMsg : Str :=
  "Please provide a tag to search for.\nFormat: /find #tag".data

def noFoundMsg (tag : Str) : Str :=
  "No links found with tag #".data ++ tag

/-- The message `find_by_tag` accumulates for a non-empty result. -/
def findMessage (tag : Str) (links : List LinkRecord) : Str :=
  "Links tagged with #".data ++ tag ++ ":\n\n".data ++
    (links.map fmtRecord).flatten

/-- Line 129: `context.args[0].replace('#', '')` removes every `#`
character of the argument, not only a leading one. -/
def replaceHash (a : Str) : Str := a.filter (fun c => !(c == '#'))

/-- The `/find` handler: `args` are the tokens after the command name
(`context.args`).  The result message is sent as one reply, with no
length check. -/
def find_by_tag (uid : Nat) (args : List Str) (s : List LinkRecord) :
    List Str :=
  match args with
  | [] => [findUsageMsg]
  | a :: _ =>
    let tag := replaceHash a
    let found := findByOwnerAndTag uid tag s
    if found.isEmpty then [noFoundMsg tag]
    else [findMessage tag found]

/-! ### Helper lemmas about the tag extraction -/

theorem startsHash_iff {w : Str} : startsHash w = true ↔ ∃ t, w = '#' :: t := by
  cases w with
  | nil => simp [startsHash]
  | cons c cs =>
    simp only [startsHash, List.head?_cons, beq_iff_eq, Option.some.injEq]
    constructor
    · rintro rfl; exact ⟨cs, rfl⟩
    · rintro ⟨t, ht⟩; cases ht; rfl

theorem startsHash_false_ne {w : Str} (h : startsHash w = false) (t : Str) :
    ('#' :: t) ≠ w := by
  intro hw
  rw [← hw] at h
  simp [startsHash] at h

theorem mem_tagsOfParts {parts : List Str} {t : Str} :
    t ∈ tagsOfParts parts ↔ ('#' :: t) ∈ parts.drop 2 := by
  unfold tagsOfParts
  induction parts.drop 2 with
  | nil => simp
  | cons w ws ih =>
    cases hw : startsHash w with
    | false =>
      have hne := startsHash_false_ne hw t
      rw [List.filter_cons, if_neg (by simp [hw]), ih, List.mem_cons]
      exact ⟨Or.inr, fun h => h.elim (fun he => absurd he hne) id⟩
    | true =>
      obtain ⟨u, rfl⟩ := startsHash_iff.mp hw
      rw [List.filter_cons, if_pos hw, List.map_cons, List.mem_cons,
        List.mem_cons, ih]
      constructor
      · rintro (rfl | hm)
        · exact Or.inl rfl
        · exact Or.inr hm
      · rintro (he | hm)
        · injection he with h1 h2
          exact Or.inl h2
        · exact Or.inr hm

theorem count_tagsOfParts (parts : List Str) (t : Str) :
    (tagsOfParts parts).count t = (parts.drop 2).count ('#' :: t) := by
  unfold tagsOfParts
  induction parts.drop 2 with
  | nil => simp
  | cons w ws ih =>
    cases hw : startsHash w with
    | false =>
      have hne := startsHash_false_ne hw t
      rw [List.filter_cons, if_neg (by simp [hw]), ih, List.count_cons,
        beq_eq_false_iff_ne.mpr (Ne.symm hne)]
      simp
    | true =>
      obtain ⟨u, rfl⟩ := startsHash_iff.mp hw
      rw [List.filter_cons, if_pos hw, List.map_cons, List.count_cons,
        List.count_cons, ih]
      congr 1

theorem tagsOfParts_sublist (parts : List Str) :
    ((tagsOfParts parts).map (fun t => '#' :: t)).Sublist (parts.drop 2) := by
  unfold tagsOfParts
  induction parts.drop 2 with
  | nil => simp
  | cons w ws ih =>
    cases hw : startsHash w with
    | false =>
      simp only [List.filter_cons, hw, Bool.false_eq_true, if_false]
      exact ih.cons w
    | true =>
      obtain ⟨u, rfl⟩ := startsHash_iff.mp hw
      simpa [List.filter_cons, hw] using ih

/-! ### Helper lemmas about `save_link` -/

theorem save_link_usage {text : Str} {uid now : Nat} {s : List LinkRecord}
    (h : (pyTokens text).length < 2) :
    save_link text uid now s = (s, [saveUsageMsg]) := by
  unfold save_link
  rw [if_pos h]

theorem save_link_shape (text : Str) (uid now : Nat) (s : List LinkRecord) :
    (save_link text uid now s).1 = s ∨
      (save_link text uid now s).1 =
        s ++ [⟨uid, linkOf text, saveTags text, now⟩] := by
  unfold save_link
  split
  · exact Or.inl rfl
  · split
    · exact Or.inl rfl
    · split
      · exact Or.inl rfl
      · exact Or.inr rfl

theorem save_link_success {text : Str} {uid now : Nat} {s : List LinkRecord}
    {r : LinkRecord} (h : (save_link text uid now s).1 = s ++ [r]) :
    r = ⟨uid, linkOf text, saveTags text, now⟩ := by
  rcases save_link_shape text uid now s with hs | hs
  · rw [hs] at h
    have := congrArg List.length h
    simp at this
  · rw [hs] at h
    have h2 := List.append_cancel_left h
    injection h2 with h3
    exact h3.symm

theorem save_link_success_guards {text : Str} {uid now : Nat}
    {s : List LinkRecord} {r : LinkRecord}
    (h : (save_link text uid now s).1 = s ++ [r]) :
    2 ≤ (pyTokens text).length ∧
      ∃ n, urlNetloc (linkOf text) = some n ∧ n ≠ [] := by
  have hlen : (s ++ [r]).length ≠ s.length := by simp
  unfold save_link at h
  split at h
  · exact absurd (congrArg List.length h.symm) hlen
  · rename_i hge
    refine ⟨by omega, ?_⟩
    split at h
    · exact absurd (congrArg List.length h.symm) hlen
    · rename_i n hn
      split at h
      · exact absurd (congrArg List.length h.symm) hlen
      · rename_i hne
        exact ⟨n, hn, by simpa [List.isEmpty_iff] using hne⟩

theorem save_link_commit {text : Str} {uid now : Nat} {s : List LinkRecord}
    {n : Str} (h2 : 2 ≤ (pyTokens text).length)
    (hn : urlNetloc (linkOf text) = some n) (hne : n ≠ []) :
    save_link text uid now s =
      (s ++ [⟨uid, linkOf text, saveTags text, now⟩],
        [savedOkMsg (saveTags text)]) := by
  unfold save_link
  rw [if_neg (by omega), hn]
  simp only [List.isEmpty_iff]
  rw [if_neg hne]

/-! ### Helper lemmas about chunking -/

theorem chunksAux_flatten (fuel : Nat) :
    ∀ s : Str, s.length ≤ fuel → (chunksAux fuel s).flatten = s := by
  induction fuel with
  | zero =>
    intro s h
    have : s = [] := List.length_eq_zero.mp (Nat.le_zero.mp h)
    subst this
    rfl
  | succ f ih =>
    intro s h
    cases s with
    | nil => rfl
    | cons c cs =>
      have hrec : (cs.drop 3999).length ≤ f := by
        simp only [List.length_drop]
        simp only [List.length_cons] at h
        omega
      calc (chunksAux (f + 1) (c :: cs)).flatten
          = (c :: cs).take 4000 ++ (chunksAux f (cs.drop 3999)).flatten := rfl
        _ = (c :: cs).take 4000 ++ cs.drop 3999 := by rw [ih _ hrec]
        _ = (c :: cs).take 4000 ++ (c :: cs).drop 4000 := rfl
        _ = c :: cs := List.take_append_drop 4000 (c :: cs)

theorem chunksAux_chunk_le {fuel : Nat} :
    ∀ {s c : Str}, c ∈ chunksAux fuel s → c.length ≤ 4000 := by
  induction fuel with
  | zero => intro s c h; simp [chunksAux] at h
  | succ f ih =>
    intro s c h
    cases s with
    | nil => simp [chunksAux] at h
    | cons a as =>
      rcases List.mem_cons.mp h with rfl | hm
      · exact List.length_take_le 4000 (a :: as)
      · exact ih hm

theorem chunksAux_ne_nil {fuel : Nat} {s : Str} (hs : s ≠ [])
    (h : s.length ≤ fuel) : chunksAux fuel s ≠ [] := by
  cases s with
  | nil => exact absurd rfl hs
  | cons c cs =>
    cases fuel with
    | zero => simp at h
    | succ f => simp [chunksAux]

theorem chunksAux_two_le {fuel : Nat} {s : Str} (h : s.length ≤ fuel)
    (h4 : 4000 < s.length) : 2 ≤ (chunksAux fuel s).length := by
  cases s with
  | nil => simp at h4
  | cons c cs =>
    cases fuel with
    | zero => simp at h
    | succ f =>
      have h1 : cs.drop 3999 ≠ [] := by
        intro he
        have := congrArg List.length he
        simp only [List.length_drop, List.length_nil] at this
        simp only [List.length_cons] at h4
        omega
      have h2 : (cs.drop 3999).length ≤ f := by
        simp only [List.length_drop]
        simp only [List.length_cons] at h
        omega
      have := chunksAux_ne_nil h1 h2
      have hpos : 1 ≤ (chunksAux f (cs.drop 3999)).length :=
        Nat.one_le_iff_ne_zero.mpr (fun hz => this (List.length_eq_zero.mp hz))
      simp only [chunksAux, List.length_cons]
      omega

theorem chunks4000_flatten (s : Str) : (chunks4000 s).flatten = s :=
  chunksAux_flatten s.length s le_rfl

theorem chunks4000_chunk_le {s c : Str} (h : c ∈ chunks4000 s) :
    c.length ≤ 4000 :=
  chunksAux_chunk_le h

theorem chunks4000_two_le {s : Str} (h4 : 4000 < s.length) :
    2 ≤ (chunks4000 s).length :=
  chunksAux_two_le le_rfl h4

/-! ### Helper lemmas about the store queries -/

theorem listByOwner_append_other {B : Nat} {t : List LinkRecord}
    (s : List LinkRecord) (h : ∀ r ∈ t, r.user_id ≠ B) :
    listByOwner B (s ++ t) = listByOwner B s := by
  unfold listByOwner
  rw [List.filter_append]
  have ht : t.filter (fun r => r.user_id == B) = [] := by
    rw [List.filter_eq_nil_iff]
    intro r hr
    simp [h r hr]
  rw [ht, List.append_nil]

theorem findByOwnerAndTag_append_other {B : Nat} {t : List LinkRecord}
    (tag : Str) (s : List LinkRecord) (h : ∀ r ∈ t, r.user_id ≠ B) :
    findByOwnerAndTag B tag (s ++ t) = findByOwnerAndTag B tag s := by
  unfold findByOwnerAndTag
  rw [List.filter_append]
  have ht : t.filter (fun r => r.user_id == B && r.tags.contains tag) = [] := by
    rw [List.filter_eq_nil_iff]
    intro r hr
    simp [h r hr]
  rw [ht, List.append_nil]

theorem list_links_eq_of (B : Nat) {s s' : List LinkRecord}
    (h : listByOwner B s = listByOwner B s') :
    list_links B s = list_links B s' := by
  unfold list_links
  rw [h]

theorem show_tags_eq_of (B : Nat) {s s' : List LinkRecord}
    (h : listByOwner B s = listByOwner B s') :
    show_tags B s = show_tags B s' := by
  unfold show_tags
  rw [h]

theorem find_by_tag_eq_of (B : Nat) (args : List Str) {s s' : List LinkRecord}
    (h : ∀ tag, findByOwnerAndTag B tag s = findByOwnerAndTag B tag s') :
    find_by_tag B args s = find_by_tag B args s' := by
  unfold find_by_tag
  cases args with
  | nil => rfl
  | cons a rest => simp only [h (replaceHash a)]

/-! ### Helper lemmas about URL normalization -/

theorem take8_https (cand : Str) :
    ("https://".data ++ cand).take 8 = "https://".data := by
  have h : ("https://".data).length = 8 := rfl
  rw [← h, List.take_left]

theorem isHttpPre_linkOf (text : Str) : isHttpPre (linkOf text) = true := by
  unfold linkOf
  by_cases h : isHttpPre (candOf text)
  · simp [h]
  · simp only [h, Bool.false_eq_true, if_false]
    unfold isHttpPre
    rw [take8_https]
    simp

theorem linkOf_eq_iff (text : Str) :
    linkOf text = candOf text ↔ isHttpPre (candOf text) = true := by
  unfold linkOf
  by_cases h : isHttpPre (candOf text)
  · simp [h]
  · simp only [h, Bool.false_eq_true, if_false, iff_false]
    intro he
    have hl := congrArg List.length he
    simp at hl
    omega

theorem replaceHash_idem (a : Str) :
    replaceHash (replaceHash a) = replaceHash a := by
  unfold replaceHash
  induction a with
  | nil => rfl
  | cons c cs ih =>
    by_cases h : c = '#'
    · simp [List.filter_cons, h, ih]
    · simp [List.filter_cons, h, ih]

theorem findMessage_body (tag : Str) (links : List LinkRecord) :
    (findMessage tag links).drop
        ("Links tagged with #".data ++ tag ++ ":\n\n".data).length =
      (links.map fmtRecord).flatten := by
  have h : findMessage tag links =
      ("Links tagged with #".data ++ tag ++ ":\n\n".data) ++
        (links.map fmtRecord).flatten := by
    unfold findMessage
    simp [List.append_assoc]
  rw [h, List.drop_left]

theorem listMessage_body (links : List LinkRecord) :
    (listMessage links).drop ("Your saved links:\n\n".data).length =
      (links.map fmtRecord).flatten := by
  unfold listMessage
  rw [List.drop_left]

/-! ### The claims -/

/-- C1, counterexample: the code does not lower-case tags.  Saving
`/save example.com #a #B` stores the tags `["a", "B"]`, not the
`{"a", "b"}` the claim requires. -/
theorem save_tags_case_cex :
    (save_link "/save example.com #a #B".data 1 0 []).1 =
        [⟨1, "https://example.com".data, ["a".data, "B".data], 0⟩] ∧
      ["a".data, "B".data] ≠ ["a".data, "b".data] := by decide

/-- C1, amended: for every `/save` whose record is stored, the stored tags
are exactly the tokens after the URL token that start with `#`, with the
leading `#` stripped and the remaining characters kept as written (no
lower-casing); tokens not starting with `#` are silently ignored. -/
theorem save_tags_mem_iff (text : Str) (uid now : Nat) (s : List LinkRecord)
    (r : LinkRecord) (h : (save_link text uid now s).1 = s ++ [r]) (t : Str) :
    t ∈ r.tags ↔ ('#' :: t) ∈ (pyTokens text).drop 2 := by
  have hrec := save_link_success h
  subst hrec
  show t ∈ tagsOfParts (pyTokens text) ↔ _
  exact mem_tagsOfParts

/-- C1, witness for `save_tags_mem_iff` at `/save example.com #a #B`
and tag `B`. -/
theorem save_tags_mem_iff_check :
    (save_link "/save example.com #a #B".data 1 0 []).1 =
        [] ++ [⟨1, "https://example.com".data, ["a".data, "B".data], 0⟩] ∧
      ("B".data ∈
          (⟨1, "https://example.com".data, ["a".data, "B".data], 0⟩ :
            LinkRecord).tags ↔
        ('#' :: "B".data) ∈
          (pyTokens "/save example.com #a #B".data).drop 2) :=
  ⟨by decide,
    save_tags_mem_iff "/save example.com #a #B".data 1 0 []
      ⟨1, "https://example.com".data, ["a".data, "B".data], 0⟩
      (by decide) "B".data⟩

/-- C2, counterexample: `/find #a#b` searches for the tag `ab` (every `#`
removed), not `a#b` (only a leading `#` stripped) as the claim requires:
the not-found reply names `#ab`. -/
theorem find_interior_hash_cex :
    find_by_tag 1 ["#a#b".data] [] =
        ["No links found with tag #ab".data] ∧
      ("No links found with tag #ab".data : Str) ≠
        "No links found with tag #a#b".data := by decide

/-- C2, amended: with no argument `/find` replies with the usage message;
with an argument, the tag searched for is the first argument with every
`#` character removed (leading and interior alike), so searching with an
already-stripped argument behaves identically. -/
theorem find_tag_strip_all (uid : Nat) (a : Str) (rest : List Str)
    (s : List LinkRecord) :
    find_by_tag uid [] s = [findUsageMsg] ∧
      find_by_tag uid (a :: rest) [] = [noFoundMsg (replaceHash a)] ∧
      find_by_tag uid (a :: rest) s =
        find_by_tag uid (replaceHash a :: rest) s := by
  refine ⟨rfl, rfl, ?_⟩
  simp only [find_by_tag, replaceHash_idem]

/-- C3, counterexample: a `/find` result exceeding 4000 characters is sent
as one single reply longer than 4000 characters; the 4000-character
chunking of `/list` is not applied. -/
theorem find_no_chunking_cex :
    (find_by_tag 1 ["t".data]
          [⟨1, List.replicate 4001 'a', ["t".data], 0⟩]).length = 1 ∧
      ∀ m ∈ find_by_tag 1 ["t".data]
          [⟨1, List.replicate 4001 'a', ["t".data], 0⟩],
        4000 < m.length := by
  have h1 : find_by_tag 1 ["t".data]
      [⟨1, List.replicate 4001 'a', ["t".data], 0⟩] =
      [findMessage "t".data [⟨1, List.replicate 4001 'a', ["t".data], 0⟩]] :=
    rfl
  rw [h1]
  refine ⟨rfl, ?_⟩
  intro m hm
  rcases List.mem_singleton.mp hm with rfl
  have h2 : (findMessage "t".data
      [⟨1, List.replicate 4001 'a', ["t".data], 0⟩]).length = 4031 := by
    simp only [findMessage, List.map_cons, List.map_nil, List.flatten_cons,
      List.flatten_nil, List.append_nil, fmtRecord, List.isEmpty_cons,
      Bool.false_eq_true, if_false]
    simp only [List.length_append, List.length_replicate,
      show (List.intercalate ", ".data ["t".data] : Str).length = 1 from rfl,
      show ("Links tagged with #".data : Str).length = 19 from rfl,
      show ("t".data : Str).length = 1 from rfl,
      show (":\n\n".data : Str).length = 3 from rfl,
      show ("• ".data : Str).length = 2 from rfl,
      show (" [".data : Str).length = 2 from rfl,
      show ("]".data : Str).length = 1 from rfl,
      show ("\n".data : Str).length = 1 from rfl]
  rw [h2]
  omega

/-- C3, amended: a `/find` with a non-empty match set sends exactly one
reply, whose record lines (after the header) are formatted identically to
the `/list` output's record lines; no chunking is applied whatever the
length. -/
theorem find_single_reply (uid : Nat) (a : Str) (rest : List Str)
    (s : List LinkRecord)
    (h : findByOwnerAndTag uid (replaceHash a) s ≠ []) :
    find_by_tag uid (a :: rest) s =
        [findMessage (replaceHash a)
          (findByOwnerAndTag uid (replaceHash a) s)] ∧
      (findMessage (replaceHash a)
            (findByOwnerAndTag uid (replaceHash a) s)).drop
          ("Links tagged with #".data ++ replaceHash a ++ ":\n\n".data).length =
        (listMessage (findByOwnerAndTag uid (replaceHash a) s)).drop
          ("Your saved links:\n\n".data).length := by
  constructor
  · simp only [find_by_tag]
    rw [if_neg (by simpa [List.isEmpty_iff] using h)]
  · rw [findMessage_body, listMessage_body]

/-- C3, witness for `find_single_reply` at a one-record store. -/
theorem find_single_reply_check :
    findByOwnerAndTag 1 (replaceHash "#news".data)
        [⟨1, "https://www.test.com".data, ["news".data], 0⟩] ≠ [] ∧
      (find_by_tag 1 ["#news".data]
          [⟨1, "https://www.test.com".data, ["news".data], 0⟩] =
          [findMessage (replaceHash "#news".data)
            (findByOwnerAndTag 1 (replaceHash "#news".data)
              [⟨1, "https://www.test.com".data, ["news".data], 0⟩])] ∧
        (findMessage (replaceHash "#news".data)
              (findByOwnerAndTag 1 (replaceHash "#news".data)
                [⟨1, "https://www.test.com".data, ["news".data], 0⟩])).drop
            ("Links tagged with #".data ++ replaceHash "#news".data ++
              ":\n\n".data).length =
          (listMessage (findByOwnerAndTag 1 (replaceHash "#news".data)
              [⟨1, "https://www.test.com".data, ["news".data], 0⟩])).drop
            ("Your saved links:\n\n".data).length) :=
  ⟨by decide, find_single_reply 1 "#news".data [] _ (by decide)⟩

/-- C4, counterexample: `/save example.com # ##x` stores the tag list
`["", "#x"]`: the empty string (from the bare `#` token) and a tag with a
leading `#` (from `##x`), both violating the claimed invariant. -/
theorem save_tag_degenerate_cex :
    (save_link "/save example.com # ##x".data 1 0 []).1 =
        [⟨1, "https://example.com".data, [[], "#x".data], 0⟩] ∧
      ([] : Str) ∈ [([] : Str), "#x".data] ∧
      startsHash "#x".data = true := by decide

/-- C4, amended: a stored tag is the corresponding `#`-token minus its
first character only, so the invariant holds exactly when the command has
no bare `#` token and no token starting with `##`: under that proviso
every stored tag is non-empty and does not start with `#`. -/
theorem save_tags_wellformed (text : Str) (uid now : Nat)
    (s : List LinkRecord) (r : LinkRecord)
    (h : (save_link text uid now s).1 = s ++ [r])
    (hw : ∀ w ∈ (pyTokens text).drop 2, w ≠ ['#'] ∧ w.take 2 ≠ ['#', '#']) :
    ∀ t ∈ r.tags, t ≠ [] ∧ startsHash t = false := by
  have hrec := save_link_success h
  subst hrec
  intro t ht
  have ht' : ('#' :: t) ∈ (pyTokens text).drop 2 := mem_tagsOfParts.mp ht
  obtain ⟨h1, h2⟩ := hw _ ht'
  constructor
  · intro he
    subst he
    exact h1 rfl
  · cases t with
    | nil => simp [startsHash]
    | cons c cs =>
      by_cases hc : c = '#'
      · subst hc
        exact absurd rfl h2
      · simp [startsHash, hc]

/-- C4, witness for `save_tags_wellformed` at `/save example.com #a`. -/
theorem save_tags_wellformed_check :
    (save_link "/save example.com #a".data 1 0 []).1 =
        [] ++ [⟨1, "https://example.com".data, ["a".data], 0⟩] ∧
      (∀ w ∈ (pyTokens "/save example.com #a".data).drop 2,
        w ≠ ['#'] ∧ w.take 2 ≠ ['#', '#']) ∧
      ∀ t ∈ (⟨1, "https://example.com".data, ["a".data], 0⟩ :
          LinkRecord).tags,
        t ≠ [] ∧ startsHash t = false :=
  ⟨by decide, by decide,
    save_tags_wellformed "/save example.com #a".data 1 0 []
      ⟨1, "https://example.com".data, ["a".data], 0⟩
      (by decide) (by decide)⟩

/-- C5, counterexample: a candidate with the explicit scheme `ftp://` is
not left unchanged: `https://` is prepended anyway, and the stored link is
`https://ftp://example.com`. -/
theorem save_scheme_prepend_cex :
    (save_link "/save ftp://example.com".data 1 0 []).1 =
        [⟨1, "https://ftp://example.com".data, [], 0⟩] ∧
      "https://ftp://example.com".data ≠ "ftp://example.com".data := by
  decide

/-- C5, amended: `https://` is prepended exactly when the candidate does
not already start with the literal `http://` or `https://` (any other
scheme still gets `https://` prepended); an empty netloc makes the command
fail with the invalid-URL reply without saving, and every record that is
saved has a link with an `http(s)://` scheme and a non-empty netloc. -/
theorem save_url_normalized (text : Str) (uid now : Nat)
    (s : List LinkRecord) (h2 : 2 ≤ (pyTokens text).length) :
    (linkOf text = candOf text ↔ isHttpPre (candOf text) = true) ∧
      (urlNetloc (linkOf text) = some [] →
        save_link text uid now s = (s, [invalidUrlMsg])) ∧
      ∀ r, (save_link text uid now s).1 = s ++ [r] →
        r.link = linkOf text ∧ isHttpPre r.link = true ∧
          ∃ n, urlNetloc r.link = some n ∧ n ≠ [] := by
  refine ⟨linkOf_eq_iff text, ?_, ?_⟩
  · intro hn
    unfold save_link
    rw [if_neg (by omega), hn]
    simp
  · intro r hr
    have hrec := save_link_success hr
    obtain ⟨-, n, hn, hne⟩ := save_link_success_guards hr
    subst hrec
    exact ⟨rfl, isHttpPre_linkOf text, n, hn, hne⟩

/-- C5, witness for `save_url_normalized` at `/save example.com`. -/
theorem save_url_normalized_check :
    2 ≤ (pyTokens "/save example.com".data).length ∧
      ((linkOf "/save example.com".data = candOf "/save example.com".data ↔
          isHttpPre (candOf "/save example.com".data) = true) ∧
        (urlNetloc (linkOf "/save example.com".data) = some [] →
          save_link "/save example.com".data 1 0 [] =
            ([], [invalidUrlMsg])) ∧
        ∀ r, (save_link "/save example.com".data 1 0 []).1 = [] ++ [r] →
          r.link = linkOf "/save example.com".data ∧
            isHttpPre r.link = true ∧
            ∃ n, urlNetloc r.link = some n ∧ n ≠ []) :=
  ⟨by decide, save_url_normalized "/save example.com".data 1 0 [] (by decide)⟩

/-- C6: for every owner, tag and store state, the `/find` query returns
exactly the records of the `/list` query whose tag set contains the tag,
in the same order. -/
theorem find_eq_filter_of_list (uid : Nat) (tag : Str)
    (s : List LinkRecord) :
    findByOwnerAndTag uid tag s =
      (listByOwner uid s).filter (fun r => r.tags.contains tag) := by
  unfold findByOwnerAndTag listByOwner
  rw [List.filter_filter]
  exact List.filter_congr fun r _ => Bool.and_comm _ _

/-- C7: whenever the `/list` output message exceeds 4000 characters, the
handler sends the 4000-character chunks of the message: at least two
replies, each at most 4000 characters, whose in-order concatenation is the
original message. -/
theorem list_links_chunking (uid : Nat) (s : List LinkRecord)
    (h0 : listByOwner uid s ≠ [])
    (h4 : 4000 < (listMessage (listByOwner uid s)).length) :
    list_links uid s = chunks4000 (listMessage (listByOwner uid s)) ∧
      2 ≤ (list_links uid s).length ∧
      (∀ c ∈ list_links uid s, c.length ≤ 4000) ∧
      (list_links uid s).flatten = listMessage (listByOwner uid s) := by
  have he : list_links uid s =
      chunks4000 (listMessage (listByOwner uid s)) := by
    unfold list_links
    rw [if_neg (by simpa [List.isEmpty_iff] using h0), if_pos h4]
  refine ⟨he, ?_, ?_, ?_⟩
  · rw [he]
    exact chunks4000_two_le h4
  · rw [he]
    exact fun c hc => chunks4000_chunk_le hc
  · rw [he]
    exact chunks4000_flatten _

theorem listMessage_replicate_len :
    (listMessage (listByOwner 1 [⟨1, List.replicate 4001 'a', [], 0⟩])).length
      = 4023 := by
  have h1 : listByOwner 1 [⟨1, List.replicate 4001 'a', [], 0⟩] =
      [⟨1, List.replicate 4001 'a', [], 0⟩] := rfl
  rw [h1]
  simp only [listMessage, List.map_cons, List.map_nil, List.flatten_cons,
    List.flatten_nil, List.append_nil, fmtRecord, List.isEmpty_nil, if_true]
  simp only [List.length_append, List.length_replicate, List.length_nil,
    show ("Your saved links:\n\n".data : Str).length = 19 from rfl,
    show ("• ".data : Str).length = 2 from rfl,
    show ("\n".data : Str).length = 1 from rfl]

/-- C7, witness for `list_links_chunking` at a store whose single record
has a 4001-character link. -/
theorem list_links_chunking_check :
    listByOwner 1 [⟨1, List.replicate 4001 'a', [], 0⟩] ≠ [] ∧
      4000 <
        (listMessage (listByOwner 1
          [⟨1, List.replicate 4001 'a', [], 0⟩])).length ∧
      (list_links 1 [⟨1, List.replicate 4001 'a', [], 0⟩] =
          chunks4000 (listMessage (listByOwner 1
            [⟨1, List.replicate 4001 'a', [], 0⟩])) ∧
        2 ≤ (list_links 1 [⟨1, List.replicate 4001 'a', [], 0⟩]).length ∧
        (∀ c ∈ list_links 1 [⟨1, List.replicate 4001 'a', [], 0⟩],
          c.length ≤ 4000) ∧
        (list_links 1 [⟨1, List.replicate 4001 'a', [], 0⟩]).flatten =
          listMessage (listByOwner 1
            [⟨1, List.replicate 4001 'a', [], 0⟩])) :=
  ⟨fun h => List.cons_ne_nil _ _ (by exact h),
    by rw [listMessage_replicate_len]; omega,
    list_links_chunking 1 [⟨1, List.replicate 4001 'a', [], 0⟩]
      (fun h => List.cons_ne_nil _ _ (by exact h))
      (by rw [listMessage_replicate_len]; omega)⟩

/-- C8: a `/save` by one user leaves the `/list`, `/tags` and `/find`
replies of every other user unchanged. -/
theorem save_owner_isolation (A B : Nat) (hAB : A ≠ B) (text : Str)
    (now : Nat) (s : List LinkRecord) :
    list_links B (save_link text A now s).1 = list_links B s ∧
      show_tags B (save_link text A now s).1 = show_tags B s ∧
      ∀ args, find_by_tag B args (save_link text A now s).1 =
        find_by_tag B args s := by
  have hshape := save_link_shape text A now s
  have howned : ∀ r ∈ [(⟨A, linkOf text, saveTags text, now⟩ : LinkRecord)],
      r.user_id ≠ B := by
    intro r hr
    rcases List.mem_singleton.mp hr with rfl
    exact hAB
  have hlist : listByOwner B (save_link text A now s).1 = listByOwner B s := by
    rcases hshape with hs | hs
    · rw [hs]
    · rw [hs]
      exact listByOwner_append_other s howned
  have hfind : ∀ tag, findByOwnerAndTag B tag (save_link text A now s).1 =
      findByOwnerAndTag B tag s := by
    intro tag
    rcases hshape with hs | hs
    · rw [hs]
    · rw [hs]
      exact findByOwnerAndTag_append_other tag s howned
  exact ⟨list_links_eq_of B hlist, show_tags_eq_of B hlist,
    fun args => find_by_tag_eq_of B args hfind⟩

/-- C8, witness for `save_owner_isolation`: after user 1 saves a link,
user 2's `/list` on an empty store still replies that no links are saved
yet. -/
theorem save_owner_isolation_check :
    (1 : Nat) ≠ 2 ∧
      (list_links 2 (save_link "/save www.test.com #news".data 1 0 []).1 =
          list_links 2 [] ∧
        show_tags 2 (save_link "/save www.test.com #news".data 1 0 []).1 =
          show_tags 2 [] ∧
        ∀ args, find_by_tag 2 args
            (save_link "/save www.test.com #news".data 1 0 []).1 =
          find_by_tag 2 args []) ∧
      list_links 2 (save_link "/save www.test.com #news".data 1 0 []).1 =
        [noLinksYet] :=
  ⟨by decide,
    save_owner_isolation 1 2 (by decide) "/save www.test.com #news".data 0 [],
    by decide⟩

/-- C9: a `/save` whose text has fewer than two whitespace-separated
tokens replies with the usage message naming the expected format and
leaves the store unchanged. -/
theorem save_missing_argument (text : Str) (uid now : Nat)
    (s : List LinkRecord) (h : (pyTokens text).length < 2) :
    save_link text uid now s = (s, [saveUsageMsg]) := by
  unfold save_link
  rw [if_pos h]

/-- C9, witness for `save_missing_argument` at the single-token text
`/save`. -/
theorem save_missing_argument_check :
    (pyTokens "/save".data).length < 2 ∧
      save_link "/save".data 7 3 [] = ([], [saveUsageMsg]) :=
  ⟨by decide, save_missing_argument "/save".data 7 3 [] (by decide)⟩

/-- C10: the stored tag list keeps the `#`-tokens' command order and
multiplicity: re-attaching `#` to the stored tags gives a sublist of the
tokens after the URL, and a tag stored `n` times corresponds to a token
occurring `n` times. -/
theorem save_tags_order_multiplicity (text : Str) (uid now : Nat)
    (s : List LinkRecord) (r : LinkRecord)
    (h : (save_link text uid now s).1 = s ++ [r]) :
    ((r.tags.map (fun t => '#' :: t)).Sublist ((pyTokens text).drop 2)) ∧
      ∀ t : Str, r.tags.count t =
        ((pyTokens text).drop 2).count ('#' :: t) := by
  have hrec := save_link_success h
  subst hrec
  exact ⟨tagsOfParts_sublist (pyTokens text),
    fun t => count_tagsOfParts (pyTokens text) t⟩

/-- C10, witness for `save_tags_order_multiplicity` at
`/save x.com #a #b #a`, whose tag `a` is stored twice. -/
theorem save_tags_order_multiplicity_check :
    (save_link "/save x.com #a #b #a".data 1 0 []).1 =
        [] ++ [⟨1, "https://x.com".data,
          ["a".data, "b".data, "a".data], 0⟩] ∧
      ((((⟨1, "https://x.com".data, ["a".data, "b".data, "a".data], 0⟩ :
              LinkRecord).tags.map (fun t => '#' :: t)).Sublist
          ((pyTokens "/save x.com #a #b #a".data).drop 2)) ∧
        ∀ t : Str,
          (⟨1, "https://x.com".data, ["a".data, "b".data, "a".data], 0⟩ :
            LinkRecord).tags.count t =
          ((pyTokens "/save x.com #a #b #a".data).drop 2).count
            ('#' :: t)) :=
  ⟨by decide,
    save_tags_order_multiplicity "/save x.com #a #b #a".data 1 0 []
      ⟨1, "https://x.com".data, ["a".data, "b".data, "a".data], 0⟩
      (by decide)⟩
